import Mathlib

/-!
Shallow embedding of the `length` C++ header (src/include/length/length.hpp):
a compile-time unit-tagged length type over IEEE doubles, with five units
(metre, centimetre, millimetre, inch, foot), exact `std::ratio` scale factors,
and free operations convert / == / + / - / * / /.

Doubles are modelled by `D`: exact rationals for finite values, together with
the IEEE special values negative zero, the two infinities and NaN.  The model
follows the IEEE-754 operation tables (sign of zero results, NaN propagation,
infinity arithmetic) exactly; finite arithmetic is exact rational arithmetic,
i.e. the model abstracts the rounding step of each operation but keeps every
structural property of the code.
-/

namespace LengthModel

/-- Model of an IEEE binary64 value: a finite value is an exact rational
(`fin 0` is positive zero), plus negative zero, the infinities and NaN. -/
inductive D where
  | fin (q : ℚ)
  | negZero
  | inf
  | negInf
  | nan
deriving DecidableEq, Repr

/-- IEEE multiplication on the model (exact on finite values). -/
def dmul : D → D → D
  | .nan, _ => .nan
  | _, .nan => .nan
  | .inf, .inf => .inf
  | .inf, .negInf => .negInf
  | .negInf, .inf => .negInf
  | .negInf, .negInf => .inf
  | .inf, .fin q => if q = 0 then .nan else if q < 0 then .negInf else .inf
  | .fin q, .inf => if q = 0 then .nan else if q < 0 then .negInf else .inf
  | .negInf, .fin q => if q = 0 then .nan else if q < 0 then .inf else .negInf
  | .fin q, .negInf => if q = 0 then .nan else if q < 0 then .inf else .negInf
  | .inf, .negZero => .nan
  | .negZero, .inf => .nan
  | .negInf, .negZero => .nan
  | .negZero, .negInf => .nan
  | .negZero, .negZero => .fin 0
  | .negZero, .fin q => if q < 0 then .fin 0 else .negZero
  | .fin q, .negZero => if q < 0 then .fin 0 else .negZero
  | .fin a, .fin b => if (a = 0 ∧ b < 0) ∨ (b = 0 ∧ a < 0) then .negZero else .fin (a * b)

/-- IEEE division on the model (exact on finite values). -/
def ddiv : D → D → D
  | .nan, _ => .nan
  | _, .nan => .nan
  | .inf, .inf => .nan
  | .inf, .negInf => .nan
  | .negInf, .inf => .nan
  | .negInf, .negInf => .nan
  | .inf, .fin q => if q < 0 then .negInf else .inf
  | .inf, .negZero => .negInf
  | .negInf, .fin q => if q < 0 then .inf else .negInf
  | .negInf, .negZero => .inf
  | .fin q, .inf => if q < 0 then .negZero else .fin 0
  | .fin q, .negInf => if q < 0 then .fin 0 else .negZero
  | .negZero, .inf => .negZero
  | .negZero, .negInf => .fin 0
  | .negZero, .negZero => .nan
  | .negZero, .fin q => if q = 0 then .nan else if q < 0 then .fin 0 else .negZero
  | .fin a, .negZero => if a = 0 then .nan else if a < 0 then .inf else .negInf
  | .fin a, .fin b =>
      if b = 0 then (if a = 0 then .nan else if a < 0 then .negInf else .inf)
      else if a = 0 ∧ b < 0 then .negZero
      else .fin (a / b)

/-- IEEE addition on the model (round-to-nearest zero-sign rules; exact on
finite values). -/
def dadd : D → D → D
  | .nan, _ => .nan
  | _, .nan => .nan
  | .inf, .negInf => .nan
  | .negInf, .inf => .nan
  | .inf, _ => .inf
  | _, .inf => .inf
  | .negInf, _ => .negInf
  | _, .negInf => .negInf
  | .negZero, .negZero => .negZero
  | .negZero, .fin q => .fin q
  | .fin q, .negZero => .fin q
  | .fin a, .fin b => .fin (a + b)

/-- IEEE negation on the model. -/
def dneg : D → D
  | .fin q => if q = 0 then .negZero else .fin (-q)
  | .negZero => .fin 0
  | .inf => .negInf
  | .negInf => .inf
  | .nan => .nan

/-- IEEE subtraction: `x - y = x + (-y)` per IEEE-754. -/
def dsub (x y : D) : D := dadd x (dneg y)

/-- IEEE comparison `==`: NaN is unequal to everything, the two zeros are
equal, otherwise value equality. -/
def deq : D → D → Bool
  | .nan, _ => false
  | _, .nan => false
  | .inf, .inf => true
  | .inf, _ => false
  | _, .inf => false
  | .negInf, .negInf => true
  | .negInf, _ => false
  | _, .negInf => false
  | .negZero, .negZero => true
  | .negZero, .fin q => decide (q = 0)
  | .fin q, .negZero => decide (q = 0)
  | .fin a, .fin b => decide (a = b)

/-- Model of a `std::ratio` specialization: a compile-time pair of integers.
`std::ratio` keeps its value in reduced form with a positive denominator. -/
structure StdRat where
  num : ℤ
  den : ℤ
deriving DecidableEq, Repr

/-- Normalization `std::ratio<N, D>` performs: divide by the gcd and move the
sign to the numerator. -/
def ratioNormalize (n d : ℤ) : StdRat :=
  ⟨(if d < 0 then -1 else 1) * (n / (Int.gcd n d : ℤ)),
   (if d < 0 then -1 else 1) * (d / (Int.gcd n d : ℤ))⟩

/-- Model of `std::ratio_multiply` (result in reduced form). -/
def ratioMultiply (a b : StdRat) : StdRat :=
  ratioNormalize (a.num * b.num) (a.den * b.den)

/-- Model of `std::ratio_divide<R1, R2> = ratio_multiply<R1, ratio<R2::den, R2::num>>`. -/
def ratioDivide (a b : StdRat) : StdRat :=
  ratioMultiply a ⟨b.den, b.num⟩

/-- Exact rational value of a `std::ratio`. -/
def ratioQ (r : StdRat) : ℚ := (r.num : ℚ) / (r.den : ℚ)

/-- The closed set of unit tags: `metre`, `centimetre`, `millimetre`, `inch`,
`foot` (the `static_assert` in `Length` rejects every other tag at compile
time, so the registry is exactly these five). -/
inductive LUnit where
  | metre
  | centimetre
  | millimetre
  | inch
  | foot
deriving DecidableEq, Repr, Fintype

/-- Scale table: each tag's `ratio` member.
`metre = std::ratio<1>`, `centimetre = std::centi = ratio<1,100>`,
`millimetre = std::milli = ratio<1,1000>`,
`inch = ratio_multiply<ratio<254,100>, centimetre::ratio>`,
`foot = ratio_multiply<ratio<12,1>, inch::ratio>`. -/
def unitRat : LUnit → StdRat
  | .metre => ratioNormalize 1 1
  | .centimetre => ratioNormalize 1 100
  | .millimetre => ratioNormalize 1 1000
  | .inch => ratioMultiply (ratioNormalize 254 100) (ratioNormalize 1 100)
  | .foot => ratioMultiply (ratioNormalize 12 1)
      (ratioMultiply (ratioNormalize 254 100) (ratioNormalize 1 100))

/-- A tag's scale in metres, as an exact rational. -/
def scaleQ (U : LUnit) : ℚ := ratioQ (unitRat U)

/-- Model of `Length<Unit>`: the unit tag is a type-level index, the only
runtime state is the double `m_value`. -/
structure Length (U : LUnit) where
  val : D
deriving DecidableEq, Repr

/-- Accessor `value()`. -/
def Length.value {U : LUnit} (x : Length U) : D := x.val

/-- The `std::ratio_divide<FromUnit::ratio, ToUnit::ratio>` computed inside
`convert` (the `using r = ...` line). -/
def convRat (F T : LUnit) : StdRat := ratioDivide (unitRat F) (unitRat T)

/-- Model of `convert<FromUnit, ToUnit>`: one floating-point multiply by the
ratio's numerator, then one divide by its denominator. -/
def convert (F T : LUnit) (x : Length F) : Length T :=
  ⟨ddiv (dmul x.val (D.fin ((convRat F T).num : ℚ))) (D.fin ((convRat F T).den : ℚ))⟩

/-- The same-unit branch of `operator==` (the `if constexpr` fast path). -/
def eqSame (U : LUnit) (lhs rhs : Length U) : Bool := deq lhs.val rhs.val

/-- The cross-unit branch of `operator==`: convert `rhs` into `U1` first. -/
def eqGeneral (U1 U2 : LUnit) (lhs : Length U1) (rhs : Length U2) : Bool :=
  deq lhs.val (convert U2 U1 rhs).val

/-- Model of `operator==` with its `if constexpr` dispatch on same units. -/
def lengthEq (U1 U2 : LUnit) (lhs : Length U1) (rhs : Length U2) : Bool :=
  if U1 = U2 then deq lhs.val rhs.val
  else deq lhs.val (convert U2 U1 rhs).val

/-- The same-unit overload of `operator+`. -/
def addSame (U : LUnit) (lhs rhs : Length U) : Length U :=
  ⟨dadd lhs.val rhs.val⟩

/-- The cross-unit overload of `operator+`: result tagged with `Unit1`. -/
def addGeneral (U1 U2 : LUnit) (lhs : Length U1) (rhs : Length U2) : Length U1 :=
  ⟨dadd lhs.val (convert U2 U1 rhs).val⟩

/-- Model of `operator+` with overload resolution: the same-unit
specialization is chosen when the two unit tags coincide. -/
def lengthAdd (U1 U2 : LUnit) (lhs : Length U1) (rhs : Length U2) : Length U1 :=
  if U1 = U2 then ⟨dadd lhs.val rhs.val⟩
  else ⟨dadd lhs.val (convert U2 U1 rhs).val⟩

/-- The same-unit overload of `operator-`. -/
def subSame (U : LUnit) (lhs rhs : Length U) : Length U :=
  ⟨dsub lhs.val rhs.val⟩

/-- The cross-unit overload of `operator-`: result tagged with `Units1`. -/
def subGeneral (U1 U2 : LUnit) (lhs : Length U1) (rhs : Length U2) : Length U1 :=
  ⟨dsub lhs.val (convert U2 U1 rhs).val⟩

/-- Model of `operator-` with overload resolution. -/
def lengthSub (U1 U2 : LUnit) (lhs : Length U1) (rhs : Length U2) : Length U1 :=
  if U1 = U2 then ⟨dsub lhs.val rhs.val⟩
  else ⟨dsub lhs.val (convert U2 U1 rhs).val⟩

/-- Model of `operator*(double k, Length)`: `k * length.value()`. -/
def scaleLeft (U : LUnit) (k : D) (x : Length U) : Length U :=
  ⟨dmul k x.val⟩

/-- Model of `operator*(Length, double k)`: also computes `k * length.value()`. -/
def scaleRight (U : LUnit) (x : Length U) (k : D) : Length U :=
  ⟨dmul k x.val⟩

/-- Model of `operator/(Length, double k)`: `length.value() / k`. -/
def divScalar (U : LUnit) (x : Length U) (k : D) : Length U :=
  ⟨ddiv x.val k⟩

/-- Model of `operator/(Length<Units1>, Length<Units2>)`: a plain double,
`lhs.value() / convert<Units2, Units1>(rhs).value()`. -/
def divLength (U1 U2 : LUnit) (lhs : Length U1) (rhs : Length U2) : D :=
  ddiv lhs.val (convert U2 U1 rhs).val

/-! Helper lemmas about the model. -/

lemma convRat_pos_reduced (F T : LUnit) :
    0 < (convRat F T).num ∧ 0 < (convRat F T).den ∧
      Int.gcd (convRat F T).num (convRat F T).den = 1 := by
  revert F T; decide

lemma ratioNormalize_toQ (n d : ℤ) (hd : 0 < d) :
    ratioQ (ratioNormalize n d) = (n : ℚ) / (d : ℚ) := by
  have hg : 0 < (Int.gcd n d : ℤ) := by
    exact_mod_cast Int.gcd_pos_iff.mpr (Or.inr (ne_of_gt hd))
  have hgq : ((Int.gcd n d : ℤ) : ℚ) ≠ 0 := by exact_mod_cast Ne.symm (ne_of_lt hg)
  have hdq : (d : ℚ) ≠ 0 := by exact_mod_cast Ne.symm (ne_of_lt hd)
  unfold ratioNormalize ratioQ
  rw [if_neg (not_lt.mpr hd.le)]
  simp only [one_mul]
  rw [Int.cast_div_charZero Int.gcd_dvd_left, Int.cast_div_charZero Int.gcd_dvd_right]
  exact div_div_div_cancel_right₀ hgq _ _

lemma ratioMultiply_toQ (a b : StdRat) (ha : 0 < a.den) (hb : 0 < b.den) :
    ratioQ (ratioMultiply a b) = ratioQ a * ratioQ b := by
  unfold ratioMultiply
  rw [ratioNormalize_toQ _ _ (mul_pos ha hb)]
  unfold ratioQ
  push_cast
  rw [div_mul_div_comm]

lemma ratioDivide_toQ (a b : StdRat) (ha : 0 < a.den) (hbn : 0 < b.num) (hbd : 0 < b.den) :
    ratioQ (ratioDivide a b) = ratioQ a / ratioQ b := by
  have h1 : ((b.num : ℚ)) ≠ 0 := by exact_mod_cast Ne.symm (ne_of_lt hbn)
  have h2 : ((b.den : ℚ)) ≠ 0 := by exact_mod_cast Ne.symm (ne_of_lt hbd)
  have h3 : ((a.den : ℚ)) ≠ 0 := by exact_mod_cast Ne.symm (ne_of_lt ha)
  unfold ratioDivide
  rw [ratioMultiply_toQ a ⟨b.den, b.num⟩ ha hbn]
  unfold ratioQ
  field_simp

lemma unitRat_pos (U : LUnit) : 0 < (unitRat U).num ∧ 0 < (unitRat U).den := by
  revert U; decide

lemma convRat_toQ (F T : LUnit) : ratioQ (convRat F T) = scaleQ F / scaleQ T := by
  unfold convRat scaleQ
  exact ratioDivide_toQ _ _ (unitRat_pos F).2 (unitRat_pos T).1 (unitRat_pos T).2

lemma convRat_same (U : LUnit) : convRat U U = ⟨1, 1⟩ := by
  revert U; decide

lemma dmul_one (x : D) : dmul x (D.fin 1) = x := by
  cases x <;> norm_num [dmul]

lemma ddiv_one (x : D) : ddiv x (D.fin 1) = x := by
  cases x <;> norm_num [ddiv]

lemma dmul_fin_fin_pos (a b : ℚ) (hb : 0 < b) : dmul (D.fin a) (D.fin b) = D.fin (a * b) := by
  simp only [dmul]
  rw [if_neg]
  rintro (⟨_, h⟩ | ⟨h, _⟩)
  · exact absurd h (not_lt.mpr hb.le)
  · exact absurd h.symm (ne_of_lt hb)

lemma ddiv_fin_fin_pos (a b : ℚ) (hb : 0 < b) : ddiv (D.fin a) (D.fin b) = D.fin (a / b) := by
  have hb0 : b ≠ 0 := Ne.symm (ne_of_lt hb)
  simp only [ddiv]
  rw [if_neg hb0, if_neg]
  rintro ⟨_, h⟩
  exact absurd h (not_lt.mpr hb.le)

lemma convert_fin (F T : LUnit) (m : ℚ) :
    convert F T ⟨D.fin m⟩ = ⟨D.fin (m * (scaleQ F / scaleQ T))⟩ := by
  have h := convRat_pos_reduced F T
  have hn : (0 : ℚ) < ((convRat F T).num : ℚ) := by exact_mod_cast h.1
  have hd : (0 : ℚ) < ((convRat F T).den : ℚ) := by exact_mod_cast h.2.1
  have hq := convRat_toQ F T
  unfold ratioQ at hq
  unfold convert
  rw [dmul_fin_fin_pos _ _ hn, ddiv_fin_fin_pos _ _ hd, mul_div_assoc, hq]

lemma convert_self (U : LUnit) (x : Length U) : convert U U x = x := by
  unfold convert
  rw [convRat_same U]
  simp [dmul_one, ddiv_one]

lemma unitRat_metre : unitRat .metre = ⟨1, 1⟩ := by decide

lemma unitRat_centimetre : unitRat .centimetre = ⟨1, 100⟩ := by decide

lemma unitRat_millimetre : unitRat .millimetre = ⟨1, 1000⟩ := by decide

lemma unitRat_inch : unitRat .inch = ⟨127, 5000⟩ := by decide

lemma unitRat_foot : unitRat .foot = ⟨381, 1250⟩ := by decide

lemma scaleQ_metre : scaleQ .metre = 1 := by
  simp [scaleQ, unitRat_metre, ratioQ]

lemma scaleQ_centimetre : scaleQ .centimetre = 1 / 100 := by
  simp [scaleQ, unitRat_centimetre, ratioQ]

lemma scaleQ_millimetre : scaleQ .millimetre = 1 / 1000 := by
  simp [scaleQ, unitRat_millimetre, ratioQ]

lemma scaleQ_inch : scaleQ .inch = 127 / 5000 := by
  simp [scaleQ, unitRat_inch, ratioQ]

lemma scaleQ_foot : scaleQ .foot = 381 / 1250 := by
  simp [scaleQ, unitRat_foot, ratioQ]

lemma dadd_fin_fin (a b : ℚ) : dadd (D.fin a) (D.fin b) = D.fin (a + b) := rfl

lemma deq_fin_fin (a b : ℚ) : deq (D.fin a) (D.fin b) = decide (a = b) := rfl

lemma scaleQ_pos (U : LUnit) : 0 < scaleQ U := by
  have h := unitRat_pos U
  have h1 : (0 : ℚ) < ((unitRat U).num : ℚ) := by exact_mod_cast h.1
  have h2 : (0 : ℚ) < ((unitRat U).den : ℚ) := by exact_mod_cast h.2
  exact div_pos h1 h2

/-! The claims. -/

/-- C1: for every pair of registered units and every finite magnitude `m`,
`convert<From,To>` returns a length whose magnitude is `m` times the exact
rational ratio `From.scale / To.scale`; the ratio is held as a reduced
rational with positive denominator, it is applied as a single multiply by the
numerator followed by a divide by the denominator, and the result equals the
input in canonical-metre terms. -/
theorem convert_exact_rational_scale (F T : LUnit) (m : ℚ) :
    (convert F T ⟨D.fin m⟩).val = D.fin (m * (scaleQ F / scaleQ T)) ∧
    (convert F T ⟨D.fin m⟩).val
      = ddiv (dmul (D.fin m) (D.fin ((convRat F T).num : ℚ)))
             (D.fin ((convRat F T).den : ℚ)) ∧
    ratioQ (convRat F T) = scaleQ F / scaleQ T ∧
    Int.gcd (convRat F T).num (convRat F T).den = 1 ∧
    0 < (convRat F T).den ∧
    m * (scaleQ F / scaleQ T) * scaleQ T = m * scaleQ F := by
  have hT : scaleQ T ≠ 0 := Ne.symm (ne_of_lt (scaleQ_pos T))
  refine ⟨by rw [convert_fin], rfl, convRat_toQ F T, (convRat_pos_reduced F T).2.2,
    (convRat_pos_reduced F T).2.1, ?_⟩
  field_simp

/-- C2: the registry consists of exactly five unit tags, whose scale factors
in metres are the exact strictly positive rationals `metre = 1`,
`centimetre = 1/100`, `millimetre = 1/1000`, `inch = 254/10000` and
`foot = 12 × 254/10000`. -/
theorem unit_registry_five_exact_scales :
    Fintype.card LUnit = 5 ∧
    scaleQ .metre = 1 ∧ scaleQ .centimetre = 1 / 100 ∧ scaleQ .millimetre = 1 / 1000 ∧
    scaleQ .inch = 254 / 10000 ∧ scaleQ .foot = 12 * (254 / 10000) ∧
    ∀ U : LUnit, 0 < scaleQ U := by
  refine ⟨rfl, scaleQ_metre, scaleQ_centimetre, scaleQ_millimetre, ?_, ?_, scaleQ_pos⟩
  · rw [scaleQ_inch]; norm_num
  · rw [scaleQ_foot]; norm_num

/-- C3: `operator==` returns true exactly when the left value equals the
right value converted into the left unit, under exact floating-point
equality; when the two units coincide it is the direct comparison of the
raw values. -/
theorem eq_iff_value_eq_converted (U1 U2 : LUnit) (a b : D) :
    lengthEq U1 U2 ⟨a⟩ ⟨b⟩ = deq a (convert U2 U1 ⟨b⟩).val ∧
    lengthEq U1 U1 ⟨a⟩ ⟨b⟩ = deq a b := by
  constructor
  · unfold lengthEq
    split
    · next h => subst h; rw [convert_self]
    · rfl
  · unfold lengthEq
    rw [if_pos rfl]

/-- C4: `operator+` and `operator-` return a length tagged with the left
operand's unit (the `Length U1` return type) whose value is the left value
plus, respectively minus, the right value converted into the left unit. -/
theorem add_sub_use_left_unit (U1 U2 : LUnit) (a b : D) :
    (lengthAdd U1 U2 ⟨a⟩ ⟨b⟩).val = dadd a (convert U2 U1 ⟨b⟩).val ∧
    (lengthSub U1 U2 ⟨a⟩ ⟨b⟩).val = dsub a (convert U2 U1 ⟨b⟩).val := by
  constructor
  · unfold lengthAdd
    split
    · next h => subst h; rw [convert_self]
    · rfl
  · unfold lengthSub
    split
    · next h => subst h; rw [convert_self]
    · rfl

/-- C5: for every unit and all values, NaN and signed zeros included, the
same-unit fast paths of equality, addition and subtraction return exactly the
value produced by the general cross-unit path instantiated at `U1 = U2 = U`,
which routes through `convert<U,U>`. -/
theorem same_unit_fast_paths_agree (U : LUnit) (a b : D) :
    eqSame U ⟨a⟩ ⟨b⟩ = eqGeneral U U ⟨a⟩ ⟨b⟩ ∧
    addSame U ⟨a⟩ ⟨b⟩ = addGeneral U U ⟨a⟩ ⟨b⟩ ∧
    subSame U ⟨a⟩ ⟨b⟩ = subGeneral U U ⟨a⟩ ⟨b⟩ := by
  unfold eqSame eqGeneral addSame addGeneral subSame subGeneral
  rw [convert_self]
  exact ⟨rfl, rfl, rfl⟩

/-- C6: converting a finite magnitude from unit `A` to unit `B` and back
reproduces the original magnitude exactly (the model applies each conversion
as an exact rational ratio, so the only deviation in the C++ code is the
floating-point rounding of the two multiply-divides, and the claim's
round-trip identity holds with zero algorithmic bias). -/
theorem convert_round_trip (A B : LUnit) (m : ℚ) :
    (convert B A (convert A B ⟨D.fin m⟩)).val = D.fin m := by
  have hA : scaleQ A ≠ 0 := Ne.symm (ne_of_lt (scaleQ_pos A))
  have hB : scaleQ B ≠ 0 := Ne.symm (ne_of_lt (scaleQ_pos B))
  rw [convert_fin, convert_fin]
  congr 1
  field_simp

/-- C7: dividing a length by a length strips the unit tag and returns the
plain quotient of the left value by the right value converted into the left
unit; in particular 2 mm divided by 1 cm is the pure number `0.2 = 1/5`. -/
theorem length_div_length_dimensionless (U1 U2 : LUnit) (a b : D) :
    divLength U1 U2 ⟨a⟩ ⟨b⟩ = ddiv a (convert U2 U1 ⟨b⟩).val ∧
    divLength .millimetre .centimetre ⟨D.fin 2⟩ ⟨D.fin 1⟩ = D.fin (2 / 10) := by
  refine ⟨rfl, ?_⟩
  norm_num [divLength, convert_fin, scaleQ_centimetre, scaleQ_millimetre,
    ddiv_fin_fin_pos]

/-- C8: dividing a length by the scalar zero takes no error path: it returns
a length of the same unit holding the IEEE quotient, positive infinity for a
positive magnitude, negative infinity for a negative one, and NaN for zero or
NaN magnitudes. -/
theorem div_by_zero_ieee (U : LUnit) (m : ℚ) :
    (divScalar U ⟨D.fin m⟩ (D.fin 0)).val
      = (if m = 0 then D.nan else if m < 0 then D.negInf else D.inf) ∧
    (divScalar U ⟨D.nan⟩ (D.fin 0)).val = D.nan := by
  refine ⟨?_, rfl⟩
  show ddiv (D.fin m) (D.fin 0) = _
  simp [ddiv]

/-- C9: `add(200 mm, scale(3 m, 1.0/6.0))` equals
`add(scale(10 cm, 2.0), scale(50 cm, 1.0))` under the library's `==`; both
sides reduce to 700 mm = 70 cm and the equality is exact. -/
theorem add_scale_concrete_identity :
    lengthEq .millimetre .centimetre
      (lengthAdd .millimetre .metre ⟨D.fin 200⟩
        (scaleRight .metre ⟨D.fin 3⟩ (ddiv (D.fin 1) (D.fin 6))))
      (lengthAdd .centimetre .centimetre
        (scaleRight .centimetre ⟨D.fin 10⟩ (D.fin 2))
        (scaleRight .centimetre ⟨D.fin 50⟩ (D.fin 1))) = true := by
  unfold lengthEq lengthAdd
  rw [if_neg (show ¬ (LUnit.millimetre = LUnit.centimetre) from by decide),
      if_neg (show ¬ (LUnit.millimetre = LUnit.metre) from by decide),
      if_pos rfl]
  norm_num [scaleRight, convert_fin, scaleQ_metre,
    scaleQ_centimetre, scaleQ_millimetre, dmul_fin_fin_pos, ddiv_fin_fin_pos,
    dadd_fin_fin, deq_fin_fin]

/-- C10: same-unit equality is reflexive exactly on non-NaN values: a length
compared with itself yields true for every finite value, both zeros and both
infinities, and false exactly when the stored value is NaN. -/
theorem same_unit_eq_refl_iff_not_nan (U : LUnit) (x : D) :
    lengthEq U U ⟨x⟩ ⟨x⟩ = true ↔ x ≠ D.nan := by
  unfold lengthEq
  rw [if_pos rfl]
  cases x <;> simp [deq]

end LengthModel
